import Mathlib

/-!
Formal model of `runSequentialPromises`
(`src/ui/src/utils/run-sequential-promises.js`).

The function receives a list of job functions (each maps a snapshot of the
result list to a promise), a `threadsNumber` and an `abortOnFail` flag.  It
keeps a shared cursor `jobIndex`, a shared `hasAborted` flag and a shared
`resultList`, builds `Array(threadsNumber).fill(getPromiseThread())` and
returns `Promise.all(threads).then(() => resultList)`.

Because `Array(n).fill(e)` evaluates its argument `e` exactly once, a single
promise thread is created no matter what `threadsNumber` is; the thread array
holds `threadsNumber` references to that one thread.  The loop of that single
thread (`runNextPromise`) is therefore a deterministic sequential recursion,
which is what the embedding below captures, together with the trace of cursor
claims, job invocations and result-slot writes that the loop performs.
-/

/-- JavaScript values, as far as `runSequentialPromises` inspects them.  The
source only ever distinguishes `undefined`, `null`, and objects carrying an
`error` property; all other shapes are opaque payloads. -/
inductive JSVal : Type where
  | undef : JSVal
  | null : JSVal
  | boolean : Bool → JSVal
  | num : Int → JSVal
  | str : String → JSVal
  | obj : List (String × JSVal) → JSVal
  | arr : List JSVal → JSVal

/-- First match wins, as in a JavaScript object literal read left to right
(later duplicate keys are normalised away by `setField` below). -/
def lookupField : List (String × JSVal) → String → Option JSVal
  | [], _ => none
  | (k, v) :: rest, key => if k = key then some v else lookupField rest key

/-- Property access `v.key` as the source performs it: `undefined` when the
value is not an object or the property is absent.  (The source only accesses
properties after guarding against `undefined` and `null`, where JavaScript
would throw.) -/
def getProp : JSVal → String → JSVal
  | .obj fields, key => (lookupField fields key).getD JSVal.undef
  | _, _ => JSVal.undef

def isUndef : JSVal → Bool
  | JSVal.undef => true
  | _ => false

def isNull : JSVal → Bool
  | .null => true
  | _ => false

/-- The test on line 52 of the source:
`result !== void 0 && result !== null && result.error !== void 0`. -/
def isErrorShaped (v : JSVal) : Bool :=
  !(isUndef v) && !(isNull v) && !(isUndef (getProp v "error"))

/-- Update an existing key in place, else append — the effect of writing the
key last in an object spread. -/
def setField : List (String × JSVal) → String → JSVal → List (String × JSVal)
  | [], key, v => [(key, v)]
  | (k, w) :: rest, key, v =>
      if k = key then (key, v) :: rest else (k, w) :: setField rest key v

/-- Object spread `{ ...base, key: v }` (line 57).  Spreading a primitive
contributes no enumerable own properties. -/
def objSpreadWith (base : JSVal) (key : String) (v : JSVal) : JSVal :=
  match base with
  | .obj fields => .obj (setField fields key v)
  | _ => .obj [(key, v)]

/-- The settled state of the promise a job returns: fulfilled with a value or
rejected with a reason (each of arbitrary shape, `undefined` included). -/
inductive JobOutcome : Type where
  | fulfilled : JSVal → JobOutcome
  | rejected : JSVal → JobOutcome

/-- A job: `(resultList snapshot) => Promise<any>`.  Jobs are modelled as
deterministic functions from the snapshot they receive to the settled state
of the promise they return. -/
def Job : Type := List JSVal → JobOutcome

/-- Placeholder used by the total accessor `List.getD`; never reached on the
indices the loop actually touches, which are guarded to be in range. -/
def defaultJob : Job := fun _ => JobOutcome.fulfilled JSVal.undef

/-- The value the `.then` callback receives after the `.catch` normalisation
(lines 44–45): a fulfilled value passes through unchanged, a rejection reason
is wrapped as `{ promiseIndex, error }`. -/
def settleRecord (idx : Nat) : JobOutcome → JSVal
  | .fulfilled v => v
  | .rejected e => .obj [("promiseIndex", .num (idx : Int)), ("error", e)]

/-- The record stored on a (perceived) success (line 64):
`{ promiseIndex, data }`. -/
def successRecord (idx : Nat) (v : JSVal) : JSVal :=
  .obj [("promiseIndex", .num (idx : Int)), ("data", v)]

/-- The slot value the loop stores for the job at `idx` settling with `o`
(lines 52–64): the normalised record itself when it is error-shaped, else the
success wrapper. -/
def recordFor (idx : Nat) (o : JobOutcome) : JSVal :=
  let result := settleRecord idx o
  if isErrorShaped result then result else successRecord idx result

/-- Everything one promise thread does: the cursor values it claims, the jobs
it invokes (index and the snapshot passed), the result-slot writes it makes,
the final state of the shared `resultList`, and the payload it rejects with,
if any — all in execution order. -/
structure LaneTrace : Type where
  claims : List Nat
  invocs : List (Nat × List JSVal)
  writes : List (Nat × JSVal)
  resultList : List JSVal
  rejection : Option JSVal

/-- Prepend one completed loop iteration (claim `idx`, invoke with `snapshot`,
write `slot`) onto the trace of the remaining iterations. -/
def consStep (idx : Nat) (snapshot : List JSVal) (slot : JSVal)
    (rest : LaneTrace) : LaneTrace :=
  ⟨idx :: rest.claims, (idx, snapshot) :: rest.invocs,
    (idx, slot) :: rest.writes, rest.resultList, rest.rejection⟩

/-- The loop `runNextPromise` (lines 36–68) of the one promise thread.
`currentJobIndex` is the cursor value about to be claimed and `remaining` is
`promiseList.slice(currentJobIndex)`, so `remaining = []` exactly when
`currentJobIndex >= totalJobs` (line 38) and the head of `remaining` is
`promiseList[currentJobIndex]` (line 44).  The snapshot `[...resultList]`
is passed to the job; the `.catch` normalisation and the error-shape test
then decide between the failure branch (lines 53–60, rejecting with
`{ ...result, resultList: [...resultList] }` when `abortOnFail` is set) and
the success branch (line 64).  With a single thread `hasAborted` can never be
observed `true` at the re-entry checks (lines 38, 47): it is set only by this
thread immediately before it rejects and stops looping. -/
def runNextPromise (abortOnFail : Bool) :
    Nat → List Job → List JSVal → LaneTrace
  | currentJobIndex, [], resultList =>
      ⟨[currentJobIndex], [], [], resultList, none⟩
  | currentJobIndex, job :: more, resultList =>
      let result := settleRecord currentJobIndex (job resultList)
      if isErrorShaped result then
        let written := resultList.set currentJobIndex result
        if abortOnFail then
          ⟨[currentJobIndex], [(currentJobIndex, resultList)],
            [(currentJobIndex, result)], written,
            some (objSpreadWith result "resultList" (.arr written))⟩
        else
          consStep currentJobIndex resultList result
            (runNextPromise abortOnFail (currentJobIndex + 1) more written)
      else
        let slot := successRecord currentJobIndex result
        consStep currentJobIndex resultList slot
          (runNextPromise abortOnFail (currentJobIndex + 1) more
            (resultList.set currentJobIndex slot))

/-- `Array(totalJobs).fill(null)` (line 32). -/
def initList (promiseList : List Job) : List JSVal :=
  List.replicate promiseList.length JSVal.null

/-- The single promise thread: `getPromiseThread()` on line 73 is evaluated
exactly once (it is an argument to `Array.prototype.fill`), starting the loop
at cursor value `0` on the all-`null` result list. -/
def getPromiseThread (promiseList : List Job) (abortOnFail : Bool) :
    LaneTrace :=
  runNextPromise abortOnFail 0 promiseList (initList promiseList)

/-- `Array(threadsNumber).fill(getPromiseThread())` (line 73):
`threadsNumber` references to the one thread created above. -/
def threadsOf (promiseList : List Job) (threadsNumber : Nat)
    (abortOnFail : Bool) : List LaneTrace :=
  List.replicate threadsNumber (getPromiseThread promiseList abortOnFail)

/-- Observable outcome of the returned promise. -/
inductive RunOutcome : Type where
  | resolvedRun : List JSVal → RunOutcome
  | rejectedRun : JSVal → RunOutcome

/-- `Promise.all` over the thread array: rejected with the first rejection
reason among the entries, else resolved.  (All entries are the same thread
here, so "first" is immaterial.) -/
def promiseAllRejection : List LaneTrace → Option JSVal
  | [] => none
  | t :: rest =>
      match t.rejection with
      | some p => some p
      | none => promiseAllRejection rest

/-- `runSequentialPromises` (lines 25–75).  When `threadsNumber = 0` the
thread array is empty, so `Promise.all([])` resolves before any job's
continuation has run (a job's settlement is only delivered in later
microtasks), and the list observed at resolution still holds its initial
`null` slots even though the one thread was created and keeps running
unawaited.  Otherwise the returned promise settles exactly as the single
shared thread does: with its rejection payload, or with the final
`resultList`. -/
def runSequentialPromises (promiseList : List Job) (threadsNumber : Nat)
    (abortOnFail : Bool) : RunOutcome :=
  let threads := threadsOf promiseList threadsNumber abortOnFail
  if threadsNumber = 0 then
    RunOutcome.resolvedRun (initList promiseList)
  else
    match promiseAllRejection threads with
    | some p => RunOutcome.rejectedRun p
    | none =>
        RunOutcome.resolvedRun
          (getPromiseThread promiseList abortOnFail).resultList

example :
    runSequentialPromises [fun _ => .fulfilled (.num 5)] 1 true =
      .resolvedRun [successRecord 0 (.num 5)] := rfl

example :
    runSequentialPromises [fun _ => .rejected (.num 5)] 1 true =
      .rejectedRun (.obj [("promiseIndex", .num 0), ("error", .num 5),
        ("resultList", .arr [.obj [("promiseIndex", .num 0),
          ("error", .num 5)]])]) := rfl

/-! Small list facts used throughout. -/

theorem getD_set_self {α : Type} (l : List α) (i : Nat) (v d : α)
    (h : i < l.length) : (l.set i v).getD i d = v := by
  simp [List.getD_eq_getElem?_getD, List.getElem?_set_self', h,
    List.getElem?_eq_getElem]

theorem getD_set_other {α : Type} (l : List α) {i j : Nat} (v d : α)
    (h : i ≠ j) : (l.set i v).getD j d = l.getD j d := by
  simp [List.getD_eq_getElem?_getD, List.getElem?_set_ne h]

theorem getD_replicate_lt {α : Type} (n j : Nat) (a d : α) (h : j < n) :
    (List.replicate n a).getD j d = a := by
  simp [List.getD_eq_getElem?_getD, List.getElem?_replicate, h]

/-! Basic facts about the records the loop stores. -/

/-- An error-shaped value is an object, so in particular neither `null` nor
`undefined`. -/
theorem errorShaped_obj {v : JSVal} (h : isErrorShaped v = true) :
    ∃ fields, v = JSVal.obj fields := by
  cases v <;> simp [isErrorShaped, isUndef, isNull, getProp] at h ⊢

theorem recordFor_ne_null (idx : Nat) (o : JobOutcome) :
    recordFor idx o ≠ JSVal.null := by
  unfold recordFor
  by_cases hb : isErrorShaped (settleRecord idx o) = true
  · simp only [hb, if_true]
    intro hcon
    obtain ⟨fields, hf⟩ := errorShaped_obj hb
    rw [hf] at hcon
    cases hcon
  · simp only [hb]
    intro hcon
    cases hcon

theorem recordFor_of_errorShaped {idx : Nat} {o : JobOutcome}
    (h : isErrorShaped (settleRecord idx o) = true) :
    recordFor idx o = settleRecord idx o := by
  unfold recordFor
  rw [if_pos h]

theorem recordFor_of_not_errorShaped {idx : Nat} {o : JobOutcome}
    (h : isErrorShaped (settleRecord idx o) = false) :
    recordFor idx o = successRecord idx (settleRecord idx o) := by
  unfold recordFor
  rw [if_neg (by simp [h])]

/-- A genuine failure with a reason other than `undefined` is classified as
error-shaped by the test on line 52; a failure with reason `undefined` is
not. -/
theorem settle_rejected_errorShaped (idx : Nat) (e : JSVal) :
    isErrorShaped (settleRecord idx (.rejected e)) = (!(isUndef e)) := by
  simp [settleRecord, isErrorShaped, isUndef, isNull, getProp, lookupField]

/-! Structure of the single thread's trace.  All lemmas are proved by
structural induction on the remaining job list, generalizing the cursor and
the result list. -/

theorem rejection_none_noAbort (idx : Nat) (rem : List Job)
    (rl : List JSVal) : (runNextPromise false idx rem rl).rejection = none := by
  induction rem generalizing idx rl with
  | nil => rfl
  | cons job more ih =>
      simp only [runNextPromise]
      by_cases hb : isErrorShaped (settleRecord idx (job rl)) = true
      · simp [hb, consStep, ih]
      · simp [hb, consStep, ih]

theorem claims_head (ab : Bool) (idx : Nat) (rem : List Job)
    (rl : List JSVal) :
    (runNextPromise ab idx rem rl).claims.head? = some idx := by
  cases rem with
  | nil => rfl
  | cons job more =>
      simp only [runNextPromise]
      by_cases hb : isErrorShaped (settleRecord idx (job rl)) = true
      · cases ab <;> simp [hb, consStep]
      · simp [hb, consStep]

theorem invocs_bounds (ab : Bool) (idx : Nat) (rem : List Job)
    (rl : List JSVal) :
    ∀ p ∈ (runNextPromise ab idx rem rl).invocs,
      idx ≤ p.1 ∧ p.1 - idx < rem.length := by
  induction rem generalizing idx rl with
  | nil => intro p hp; cases hp
  | cons job more ih =>
      intro p hp
      simp only [runNextPromise] at hp
      by_cases hb : isErrorShaped (settleRecord idx (job rl)) = true
      · simp only [hb, if_true] at hp
        cases ab with
        | true =>
            simp only [if_true, List.mem_singleton] at hp
            subst hp
            simp
        | false =>
            simp only [Bool.false_eq_true, if_false, consStep,
              List.mem_cons] at hp
            rcases hp with hp | hp
            · subst hp; simp
            · have := ih (idx + 1) _ p hp
              constructor
              · omega
              · simp only [List.length_cons]; omega
      · simp only [hb, Bool.false_eq_true, if_false, consStep,
          List.mem_cons] at hp
        rcases hp with hp | hp
        · subst hp; simp
        · have := ih (idx + 1) _ p hp
          constructor
          · omega
          · simp only [List.length_cons]; omega

theorem invocs_map_fst (ab : Bool) (idx : Nat) (rem : List Job)
    (rl : List JSVal) :
    ∃ m, (runNextPromise ab idx rem rl).invocs.map Prod.fst =
        List.range' idx m ∧ m ≤ rem.length := by
  induction rem generalizing idx rl with
  | nil => exact ⟨0, rfl, Nat.le_refl 0⟩
  | cons job more ih =>
      simp only [runNextPromise]
      by_cases hb : isErrorShaped (settleRecord idx (job rl)) = true
      · cases ab with
        | true =>
            refine ⟨1, ?_, ?_⟩
            · simp [hb, List.range'_one]
            · simp
        | false =>
            obtain ⟨m, hmap, hm⟩ :=
              ih (idx + 1) (rl.set idx (settleRecord idx (job rl)))
            refine ⟨m + 1, ?_, ?_⟩
            · simp [hb, consStep, hmap, List.range'_succ]
            · simp only [List.length_cons]; omega
      · obtain ⟨m, hmap, hm⟩ :=
          ih (idx + 1)
            (rl.set idx (successRecord idx (settleRecord idx (job rl))))
        refine ⟨m + 1, ?_, ?_⟩
        · simp [hb, consStep, hmap, List.range'_succ]
        · simp only [List.length_cons]; omega

theorem invocs_map_fst_noAbort (idx : Nat) (rem : List Job)
    (rl : List JSVal) :
    (runNextPromise false idx rem rl).invocs.map Prod.fst =
      List.range' idx rem.length := by
  induction rem generalizing idx rl with
  | nil => rfl
  | cons job more ih =>
      simp only [runNextPromise]
      by_cases hb : isErrorShaped (settleRecord idx (job rl)) = true
      · simp [hb, consStep, ih, List.range'_succ]
      · simp [hb, consStep, ih, List.range'_succ]

theorem claims_range (ab : Bool) (idx : Nat) (rem : List Job)
    (rl : List JSVal) :
    ∃ k, (runNextPromise ab idx rem rl).claims = List.range' idx k ∧
      1 ≤ k := by
  induction rem generalizing idx rl with
  | nil => exact ⟨1, by simp [runNextPromise, List.range'_one], Nat.le_refl 1⟩
  | cons job more ih =>
      simp only [runNextPromise]
      by_cases hb : isErrorShaped (settleRecord idx (job rl)) = true
      · cases ab with
        | true => exact ⟨1, by simp [hb, List.range'_one], Nat.le_refl 1⟩
        | false =>
            obtain ⟨k, hcl, hk⟩ :=
              ih (idx + 1) (rl.set idx (settleRecord idx (job rl)))
            refine ⟨k + 1, ?_, by omega⟩
            simp [hb, consStep, hcl, List.range'_succ]
      · obtain ⟨k, hcl, hk⟩ :=
          ih (idx + 1)
            (rl.set idx (successRecord idx (settleRecord idx (job rl))))
        refine ⟨k + 1, ?_, by omega⟩
        simp [hb, consStep, hcl, List.range'_succ]

theorem writes_map_fst (ab : Bool) (idx : Nat) (rem : List Job)
    (rl : List JSVal) :
    (runNextPromise ab idx rem rl).writes.map Prod.fst =
      (runNextPromise ab idx rem rl).invocs.map Prod.fst := by
  induction rem generalizing idx rl with
  | nil => rfl
  | cons job more ih =>
      simp only [runNextPromise]
      by_cases hb : isErrorShaped (settleRecord idx (job rl)) = true
      · cases ab with
        | true => simp [hb]
        | false => simp [hb, consStep, ih]
      · simp [hb, consStep, ih]

theorem length_resultList (ab : Bool) (idx : Nat) (rem : List Job)
    (rl : List JSVal) :
    (runNextPromise ab idx rem rl).resultList.length = rl.length := by
  induction rem generalizing idx rl with
  | nil => rfl
  | cons job more ih =>
      simp only [runNextPromise]
      by_cases hb : isErrorShaped (settleRecord idx (job rl)) = true
      · cases ab with
        | true => simp [hb]
        | false => simp [hb, consStep, ih]
      · simp [hb, consStep, ih]

theorem resultList_getD_lt (ab : Bool) (idx : Nat) (rem : List Job)
    (rl : List JSVal) (d : JSVal) :
    ∀ j, j < idx →
      (runNextPromise ab idx rem rl).resultList.getD j d = rl.getD j d := by
  induction rem generalizing idx rl with
  | nil => intro j hj; rfl
  | cons job more ih =>
      intro j hj
      simp only [runNextPromise]
      by_cases hb : isErrorShaped (settleRecord idx (job rl)) = true
      · cases ab with
        | true =>
            simp only [hb, if_true]
            exact getD_set_other rl _ d (by omega)
        | false =>
            simp only [hb, Bool.false_eq_true, if_true, if_false, consStep]
            rw [ih (idx + 1) _ j (by omega)]
            exact getD_set_other rl _ d (by omega)
      · simp only [hb, Bool.false_eq_true, if_false, consStep]
        rw [ih (idx + 1) _ j (by omega)]
        exact getD_set_other rl _ d (by omega)

theorem writes_persist (ab : Bool) (idx : Nat) (rem : List Job)
    (rl : List JSVal) (hlen : rl.length = idx + rem.length) :
    ∀ i w, (i, w) ∈ (runNextPromise ab idx rem rl).writes →
      (runNextPromise ab idx rem rl).resultList.getD i JSVal.undef = w := by
  induction rem generalizing idx rl with
  | nil => intro i w hw; cases hw
  | cons job more ih =>
      intro i w hw
      have hidx : idx < rl.length := by
        simp only [List.length_cons] at hlen; omega
      simp only [runNextPromise] at hw ⊢
      by_cases hb : isErrorShaped (settleRecord idx (job rl)) = true
      · cases ab with
        | true =>
            simp only [hb, if_true, List.mem_singleton] at hw ⊢
            obtain ⟨hi, hwv⟩ := Prod.mk.injEq .. ▸ hw
            rw [hi, hwv]
            exact getD_set_self rl idx _ _ hidx
        | false =>
            simp only [hb, Bool.false_eq_true, if_true, if_false, consStep,
              List.mem_cons] at hw ⊢
            have hlen' : (rl.set idx (settleRecord idx (job rl))).length =
                (idx + 1) + more.length := by
              simp only [List.length_set, List.length_cons] at hlen ⊢; omega
            rcases hw with hw | hw
            · obtain ⟨hi, hwv⟩ := Prod.mk.injEq .. ▸ hw
              rw [hi, hwv]
              rw [resultList_getD_lt false (idx + 1) more _ _ idx
                (Nat.lt_succ_self idx)]
              exact getD_set_self rl idx _ _ hidx
            · exact ih (idx + 1) _ hlen' i w hw
      · simp only [hb, Bool.false_eq_true, if_false, consStep,
          List.mem_cons] at hw ⊢
        have hlen' :
            (rl.set idx (successRecord idx (settleRecord idx (job rl)))).length =
              (idx + 1) + more.length := by
          simp only [List.length_set, List.length_cons] at hlen ⊢; omega
        rcases hw with hw | hw
        · obtain ⟨hi, hwv⟩ := Prod.mk.injEq .. ▸ hw
          rw [hi, hwv]
          rw [resultList_getD_lt ab (idx + 1) more _ _ idx
            (Nat.lt_succ_self idx)]
          exact getD_set_self rl idx _ _ hidx
        · exact ih (idx + 1) _ hlen' i w hw

theorem mem_of_head_eq {α : Type} {l : List α} {a : α}
    (h : l.head? = some a) : a ∈ l := by
  cases l with
  | nil => cases h
  | cons b t =>
      simp only [List.head?_cons, Option.some.injEq] at h
      exact h ▸ List.mem_cons_self b t

/-- Every result-slot write stores the record of the job invoked at that very
index, computed from the snapshot that job received — never another job's
outcome. -/
theorem writes_mem_spec (ab : Bool) (idx : Nat) (rem : List Job)
    (rl : List JSVal) :
    ∀ i w, (i, w) ∈ (runNextPromise ab idx rem rl).writes →
      ∃ s, (i, s) ∈ (runNextPromise ab idx rem rl).invocs ∧
        w = recordFor i (rem.getD (i - idx) defaultJob s) := by
  induction rem generalizing idx rl with
  | nil => intro i w hw; cases hw
  | cons job more ih =>
      intro i w hw
      simp only [runNextPromise] at hw ⊢
      by_cases hb : isErrorShaped (settleRecord idx (job rl)) = true
      · cases ab with
        | true =>
            simp only [hb, if_true, List.mem_singleton] at hw ⊢
            obtain ⟨hi, hwv⟩ := Prod.mk.injEq .. ▸ hw
            refine ⟨rl, by rw [hi], ?_⟩
            rw [hi, hwv, Nat.sub_self, List.getD_cons_zero]
            simp [recordFor, hb]
        | false =>
            simp only [hb, Bool.false_eq_true, if_true, if_false, consStep,
              List.mem_cons] at hw ⊢
            rcases hw with hw | hw
            · obtain ⟨hi, hwv⟩ := Prod.mk.injEq .. ▸ hw
              refine ⟨rl, Or.inl ?_, ?_⟩
              · rw [hi]
              · rw [hi, hwv, Nat.sub_self, List.getD_cons_zero]
                simp [recordFor, hb]
            · obtain ⟨s, hmem, hrec⟩ := ih (idx + 1) _ i w hw
              have hge := (invocs_bounds false (idx + 1) more _ (i, s) hmem).1
              refine ⟨s, Or.inr hmem, ?_⟩
              have harith : i - idx = (i - (idx + 1)) + 1 := by omega
              rw [harith, List.getD_cons_succ]
              exact hrec
      · simp only [hb, Bool.false_eq_true, if_false, consStep,
          List.mem_cons] at hw ⊢
        rcases hw with hw | hw
        · obtain ⟨hi, hwv⟩ := Prod.mk.injEq .. ▸ hw
          refine ⟨rl, Or.inl ?_, ?_⟩
          · rw [hi]
          · rw [hi, hwv, Nat.sub_self, List.getD_cons_zero]
            simp [recordFor, hb]
        · obtain ⟨s, hmem, hrec⟩ := ih (idx + 1) _ i w hw
          have hge := (invocs_bounds ab (idx + 1) more _ (i, s) hmem).1
          refine ⟨s, Or.inr hmem, ?_⟩
          have harith : i - idx = (i - (idx + 1)) + 1 := by omega
          rw [harith, List.getD_cons_succ]
          exact hrec

/-- Conversely, every invocation results in exactly one write: the record of
that job's outcome at that index. -/
theorem invocs_mem_writes (ab : Bool) (idx : Nat) (rem : List Job)
    (rl : List JSVal) :
    ∀ i s, (i, s) ∈ (runNextPromise ab idx rem rl).invocs →
      (i, recordFor i (rem.getD (i - idx) defaultJob s)) ∈
        (runNextPromise ab idx rem rl).writes := by
  induction rem generalizing idx rl with
  | nil => intro i s hs; cases hs
  | cons job more ih =>
      intro i s hs
      simp only [runNextPromise] at hs ⊢
      by_cases hb : isErrorShaped (settleRecord idx (job rl)) = true
      · cases ab with
        | true =>
            simp only [hb, if_true, List.mem_singleton] at hs ⊢
            obtain ⟨hi, hsv⟩ := Prod.mk.injEq .. ▸ hs
            rw [hi, hsv, Nat.sub_self, List.getD_cons_zero]
            simp [recordFor, hb]
        | false =>
            simp only [hb, Bool.false_eq_true, if_true, if_false, consStep,
              List.mem_cons] at hs ⊢
            rcases hs with hs | hs
            · obtain ⟨hi, hsv⟩ := Prod.mk.injEq .. ▸ hs
              left
              rw [hi, hsv, Nat.sub_self, List.getD_cons_zero]
              simp [recordFor, hb]
            · have hge := (invocs_bounds false (idx + 1) more _ (i, s) hs).1
              right
              have harith : i - idx = (i - (idx + 1)) + 1 := by omega
              rw [harith, List.getD_cons_succ]
              exact ih (idx + 1) _ i s hs
      · simp only [hb, Bool.false_eq_true, if_false, consStep,
          List.mem_cons] at hs ⊢
        rcases hs with hs | hs
        · obtain ⟨hi, hsv⟩ := Prod.mk.injEq .. ▸ hs
          left
          rw [hi, hsv, Nat.sub_self, List.getD_cons_zero]
          simp [recordFor, hb]
        · have hge := (invocs_bounds ab (idx + 1) more _ (i, s) hs).1
          right
          have harith : i - idx = (i - (idx + 1)) + 1 := by omega
          rw [harith, List.getD_cons_succ]
          exact ih (idx + 1) _ i s hs

/-- When the record of an invoked job is not error-shaped, the loop goes on to
claim the next cursor value: no abort and no rejection happen on account of
that job. -/
theorem continue_claim (ab : Bool) (idx : Nat) (rem : List Job)
    (rl : List JSVal) :
    ∀ i s, (i, s) ∈ (runNextPromise ab idx rem rl).invocs →
      isErrorShaped (settleRecord i (rem.getD (i - idx) defaultJob s)) =
        false →
      (i + 1) ∈ (runNextPromise ab idx rem rl).claims := by
  induction rem generalizing idx rl with
  | nil => intro i s hs; cases hs
  | cons job more ih =>
      intro i s hs herr
      simp only [runNextPromise] at hs ⊢
      by_cases hb : isErrorShaped (settleRecord idx (job rl)) = true
      · cases ab with
        | true =>
            simp only [hb, if_true, List.mem_singleton] at hs
            obtain ⟨hi, hsv⟩ := Prod.mk.injEq .. ▸ hs
            rw [hi, hsv, Nat.sub_self, List.getD_cons_zero] at herr
            rw [hb] at herr
            cases herr
        | false =>
            simp only [hb, Bool.false_eq_true, if_true, if_false, consStep,
              List.mem_cons] at hs ⊢
            rcases hs with hs | hs
            · obtain ⟨hi, hsv⟩ := Prod.mk.injEq .. ▸ hs
              rw [hi, hsv, Nat.sub_self, List.getD_cons_zero] at herr
              rw [hb] at herr
              cases herr
            · have hge := (invocs_bounds false (idx + 1) more _ (i, s) hs).1
              have harith : i - idx = (i - (idx + 1)) + 1 := by omega
              rw [harith, List.getD_cons_succ] at herr
              exact Or.inr (ih (idx + 1) _ i s hs herr)
      · simp only [hb, Bool.false_eq_true, if_false, consStep,
          List.mem_cons] at hs ⊢
        rcases hs with hs | hs
        · obtain ⟨hi, hsv⟩ := Prod.mk.injEq .. ▸ hs
          right
          rw [hi]
          exact mem_of_head_eq (claims_head ab (idx + 1) more _)
        · have hge := (invocs_bounds ab (idx + 1) more _ (i, s) hs).1
          have harith : i - idx = (i - (idx + 1)) + 1 := by omega
          rw [harith, List.getD_cons_succ] at herr
          exact Or.inr (ih (idx + 1) _ i s hs herr)

/-- Under `abortOnFail = true`, as soon as an invoked job's record is
error-shaped the thread rejects with exactly that record spread together with
a snapshot of the result list as it stands at that moment (which is also the
final state of the list: the thread stops). -/
theorem abort_spec (idx : Nat) (rem : List Job) (rl : List JSVal) :
    ∀ i s, (i, s) ∈ (runNextPromise true idx rem rl).invocs →
      isErrorShaped (settleRecord i (rem.getD (i - idx) defaultJob s)) =
        true →
      (runNextPromise true idx rem rl).rejection =
        some (objSpreadWith
          (settleRecord i (rem.getD (i - idx) defaultJob s)) "resultList"
          (.arr (runNextPromise true idx rem rl).resultList)) := by
  induction rem generalizing idx rl with
  | nil => intro i s hs; cases hs
  | cons job more ih =>
      intro i s hs herr
      simp only [runNextPromise] at hs ⊢
      by_cases hb : isErrorShaped (settleRecord idx (job rl)) = true
      · simp only [hb, if_true, List.mem_singleton] at hs ⊢
        obtain ⟨hi, hsv⟩ := Prod.mk.injEq .. ▸ hs
        rw [hi, hsv, Nat.sub_self, List.getD_cons_zero]
      · simp only [hb, Bool.false_eq_true, if_false, consStep,
          List.mem_cons] at hs ⊢
        rcases hs with hs | hs
        · obtain ⟨hi, hsv⟩ := Prod.mk.injEq .. ▸ hs
          rw [hi, hsv, Nat.sub_self, List.getD_cons_zero] at herr
          rw [herr] at hb
          cases hb rfl
        · have hge := (invocs_bounds true (idx + 1) more _ (i, s) hs).1
          have harith : i - idx = (i - (idx + 1)) + 1 := by omega
          rw [harith, List.getD_cons_succ] at herr ⊢
          exact ih (idx + 1) _ i s hs herr

/-- Under `abortOnFail = true`, any rejection payload is the spread of the
(error-shaped) record written last, together with the final result list, in
which every slot before the failing index holds a success record, the failing
slot holds the error-shaped record, and every later slot is still `null`. -/
theorem rejection_structure (idx : Nat) (rem : List Job) (rl : List JSVal)
    (hlen : rl.length = idx + rem.length)
    (hsucc : ∀ j, j < idx → ∃ v,
      rl.getD j JSVal.undef = successRecord j v)
    (hnull : ∀ j, idx ≤ j → j < rl.length →
      rl.getD j JSVal.undef = JSVal.null) :
    ∀ p, (runNextPromise true idx rem rl).rejection = some p →
      ∃ i r, (i, r) ∈ (runNextPromise true idx rem rl).writes ∧
        isErrorShaped r = true ∧
        p = objSpreadWith r "resultList"
          (.arr (runNextPromise true idx rem rl).resultList) ∧
        (runNextPromise true idx rem rl).resultList.getD i JSVal.undef = r ∧
        (∀ j, j < i → ∃ v,
          (runNextPromise true idx rem rl).resultList.getD j JSVal.undef =
            successRecord j v) ∧
        (∀ j, i < j →
          j < (runNextPromise true idx rem rl).resultList.length →
          (runNextPromise true idx rem rl).resultList.getD j JSVal.undef =
            JSVal.null) := by
  induction rem generalizing idx rl with
  | nil => intro p hp; cases hp
  | cons job more ih =>
      intro p hp
      have hidx : idx < rl.length := by
        simp only [List.length_cons] at hlen; omega
      simp only [runNextPromise] at hp ⊢
      by_cases hb : isErrorShaped (settleRecord idx (job rl)) = true
      · simp only [hb, if_true, Option.some.injEq] at hp ⊢
        refine ⟨idx, settleRecord idx (job rl), List.mem_singleton.mpr rfl,
          hb, hp.symm, getD_set_self rl idx _ _ hidx, ?_, ?_⟩
        · intro j hj
          rw [getD_set_other rl _ _ (by omega)]
          exact hsucc j hj
        · intro j hj hjlen
          rw [List.length_set] at hjlen
          rw [getD_set_other rl _ _ (by omega)]
          exact hnull j (by omega) hjlen
      · simp only [hb, Bool.false_eq_true, if_false, consStep] at hp ⊢
        have hlen' :
            (rl.set idx (successRecord idx (settleRecord idx (job rl)))).length
              = (idx + 1) + more.length := by
          simp only [List.length_set, List.length_cons] at hlen ⊢; omega
        have hsucc' : ∀ j, j < idx + 1 → ∃ v,
            (rl.set idx
              (successRecord idx (settleRecord idx (job rl)))).getD
                j JSVal.undef = successRecord j v := by
          intro j hj
          by_cases hji : j = idx
          · subst hji
            exact ⟨settleRecord j (job rl), getD_set_self rl j _ _ hidx⟩
          · rw [getD_set_other rl _ _ (by omega)]
            exact hsucc j (by omega)
        have hnull' : ∀ j, idx + 1 ≤ j →
            j < (rl.set idx
              (successRecord idx (settleRecord idx (job rl)))).length →
            (rl.set idx
              (successRecord idx (settleRecord idx (job rl)))).getD
                j JSVal.undef = JSVal.null := by
          intro j hj hjlen
          rw [List.length_set] at hjlen
          rw [getD_set_other rl _ _ (by omega)]
          exact hnull j (by omega) hjlen
        obtain ⟨i, r, hw, hr, hpe, hslot, hbefore, hafter⟩ :=
          ih (idx + 1) _ hlen' hsucc' hnull' p hp
        exact ⟨i, r, List.mem_cons_of_mem _ hw, hr, hpe, hslot, hbefore,
          hafter⟩

/-- Every snapshot handed to the job claimed at index `i` has all slots below
`i` already filled (non-`null`) and all slots from `i` on still `null`: the
loop only invokes a job after the outcomes of all lower-indexed jobs have
been recorded. -/
theorem snapshot_spec (ab : Bool) (idx : Nat) (rem : List Job)
    (rl : List JSVal)
    (hfill : ∀ j, j < idx → rl.getD j JSVal.undef ≠ JSVal.null)
    (hnull : ∀ j, idx ≤ j → j < rl.length →
      rl.getD j JSVal.undef = JSVal.null) :
    ∀ i s, (i, s) ∈ (runNextPromise ab idx rem rl).invocs →
      s.length = rl.length ∧
      (∀ j, j < i → s.getD j JSVal.undef ≠ JSVal.null) ∧
      (∀ j, i ≤ j → j < s.length → s.getD j JSVal.undef = JSVal.null) := by
  induction rem generalizing idx rl with
  | nil => intro i s hs; cases hs
  | cons job more ih =>
      intro i s hs
      simp only [runNextPromise] at hs
      by_cases hb : isErrorShaped (settleRecord idx (job rl)) = true
      · cases ab with
        | true =>
            simp only [hb, if_true, List.mem_singleton] at hs
            obtain ⟨hi, hsv⟩ := Prod.mk.injEq .. ▸ hs
            rw [hi, hsv]
            exact ⟨rfl, hfill, hnull⟩
        | false =>
            simp only [hb, Bool.false_eq_true, if_true, if_false, consStep,
              List.mem_cons] at hs
            rcases hs with hs | hs
            · obtain ⟨hi, hsv⟩ := Prod.mk.injEq .. ▸ hs
              rw [hi, hsv]
              exact ⟨rfl, hfill, hnull⟩
            · by_cases hidx : idx < rl.length
              · have hfill' : ∀ j, j < idx + 1 →
                    (rl.set idx (settleRecord idx (job rl))).getD
                      j JSVal.undef ≠ JSVal.null := by
                  intro j hj
                  by_cases hji : j = idx
                  · subst hji
                    rw [getD_set_self rl j _ _ hidx]
                    intro hcon
                    obtain ⟨fields, hf⟩ := errorShaped_obj hb
                    rw [hf] at hcon
                    cases hcon
                  · rw [getD_set_other rl _ _ (by omega)]
                    exact hfill j (by omega)
                have hnull' : ∀ j, idx + 1 ≤ j →
                    j < (rl.set idx (settleRecord idx (job rl))).length →
                    (rl.set idx (settleRecord idx (job rl))).getD
                      j JSVal.undef = JSVal.null := by
                  intro j hj hjlen
                  rw [List.length_set] at hjlen
                  rw [getD_set_other rl _ _ (by omega)]
                  exact hnull j (by omega) hjlen
                have := ih (idx + 1) _ hfill' hnull' i s hs
                rw [List.length_set] at this
                exact this
              · have hset : rl.set idx (settleRecord idx (job rl)) = rl :=
                  List.set_eq_of_length_le (by omega)
                rw [hset] at hs
                have hfill' : ∀ j, j < idx + 1 →
                    rl.getD j JSVal.undef ≠ JSVal.null := by
                  intro j hj
                  by_cases hji : j < idx
                  · exact hfill j hji
                  · have hjidx : j = idx := by omega
                    subst hjidx
                    rw [List.getD_eq_default]
                    · intro hcon; cases hcon
                    · omega
                have hnull' : ∀ j, idx + 1 ≤ j → j < rl.length →
                    rl.getD j JSVal.undef = JSVal.null := fun j hj hjl =>
                  hnull j (by omega) hjl
                exact ih (idx + 1) rl hfill' hnull' i s hs
      · by_cases hidx : idx < rl.length
        · simp only [hb, Bool.false_eq_true, if_false, consStep,
            List.mem_cons] at hs
          rcases hs with hs | hs
          · obtain ⟨hi, hsv⟩ := Prod.mk.injEq .. ▸ hs
            rw [hi, hsv]
            exact ⟨rfl, hfill, hnull⟩
          · have hfill' : ∀ j, j < idx + 1 →
                (rl.set idx
                  (successRecord idx (settleRecord idx (job rl)))).getD
                    j JSVal.undef ≠ JSVal.null := by
              intro j hj
              by_cases hji : j = idx
              · subst hji
                rw [getD_set_self rl j _ _ hidx]
                intro hcon
                cases hcon
              · rw [getD_set_other rl _ _ (by omega)]
                exact hfill j (by omega)
            have hnull' : ∀ j, idx + 1 ≤ j →
                j < (rl.set idx
                  (successRecord idx (settleRecord idx (job rl)))).length →
                (rl.set idx
                  (successRecord idx (settleRecord idx (job rl)))).getD
                    j JSVal.undef = JSVal.null := by
              intro j hj hjlen
              rw [List.length_set] at hjlen
              rw [getD_set_other rl _ _ (by omega)]
              exact hnull j (by omega) hjlen
            have := ih (idx + 1) _ hfill' hnull' i s hs
            rw [List.length_set] at this
            exact this
        · simp only [hb, Bool.false_eq_true, if_false, consStep,
            List.mem_cons] at hs
          rcases hs with hs | hs
          · obtain ⟨hi, hsv⟩ := Prod.mk.injEq .. ▸ hs
            rw [hi, hsv]
            exact ⟨rfl, hfill, hnull⟩
          · have hset :
                rl.set idx (successRecord idx (settleRecord idx (job rl))) =
                  rl :=
              List.set_eq_of_length_le (by omega)
            rw [hset] at hs
            have hfill' : ∀ j, j < idx + 1 →
                rl.getD j JSVal.undef ≠ JSVal.null := by
              intro j hj
              by_cases hji : j < idx
              · exact hfill j hji
              · have hjidx : j = idx := by omega
                subst hjidx
                rw [List.getD_eq_default]
                · intro hcon; cases hcon
                · omega
            have hnull' : ∀ j, idx + 1 ≤ j → j < rl.length →
                rl.getD j JSVal.undef = JSVal.null := fun j hj hjl =>
              hnull j (by omega) hjl
            exact ih (idx + 1) rl hfill' hnull' i s hs

/-- The thread's behaviour depends only on the jobs' extensional behaviour:
two job lists of the same length whose entries agree as functions drive the
loop to identical traces. -/
theorem runNextPromise_ext (ab : Bool) :
    ∀ (rem₁ rem₂ : List Job) (idx : Nat) (rl : List JSVal),
      rem₁.length = rem₂.length →
      (∀ k s, rem₁.getD k defaultJob s = rem₂.getD k defaultJob s) →
      runNextPromise ab idx rem₁ rl = runNextPromise ab idx rem₂ rl := by
  intro rem₁
  induction rem₁ with
  | nil =>
      intro rem₂ idx rl hlen hext
      cases rem₂ with
      | nil => rfl
      | cons j2 m2 => cases hlen
  | cons j1 m1 ih =>
      intro rem₂ idx rl hlen hext
      cases rem₂ with
      | nil => cases hlen
      | cons j2 m2 =>
          have hj : j1 rl = j2 rl := hext 0 rl
          have hlen' : m1.length = m2.length := by
            simp only [List.length_cons] at hlen; omega
          have hext' : ∀ k s, m1.getD k defaultJob s = m2.getD k defaultJob s :=
            fun k s => hext (k + 1) s
          simp only [runNextPromise, hj]
          rw [ih m2 (idx + 1)
            (rl.set idx (settleRecord idx (j2 rl))) hlen' hext']
          rw [ih m2 (idx + 1)
            (rl.set idx (successRecord idx (settleRecord idx (j2 rl))))
            hlen' hext']

/-- `Promise.all` over `n` references to one and the same thread settles
exactly as that thread does, for every `n ≥ 1`. -/
theorem promiseAllRejection_replicate (t : LaneTrace) :
    ∀ n, n ≠ 0 → promiseAllRejection (List.replicate n t) = t.rejection := by
  intro n
  induction n with
  | zero => intro h; exact absurd rfl h
  | succ m ih =>
      intro _
      rw [List.replicate_succ]
      cases hrej : t.rejection with
      | some p => simp [promiseAllRejection, hrej]
      | none =>
          simp only [promiseAllRejection, hrej]
          cases m with
          | zero => simp [promiseAllRejection]
          | succ k => rw [ih (Nat.succ_ne_zero k), hrej]

/-- For a positive `threadsNumber` the returned promise settles as the single
shared thread does. -/
theorem runSequentialPromises_eq_of_pos (jobs : List Job) (N : Nat)
    (ab : Bool) (hN : N ≠ 0) :
    runSequentialPromises jobs N ab =
      match (getPromiseThread jobs ab).rejection with
      | some p => RunOutcome.rejectedRun p
      | none =>
          RunOutcome.resolvedRun (getPromiseThread jobs ab).resultList := by
  unfold runSequentialPromises threadsOf
  rw [if_neg hN, promiseAllRejection_replicate _ _ hN]

/-- With at least one job remaining, the thread's first invocation is the job
at the current cursor value, with the current result list as snapshot. -/
theorem invocs_head_cons (ab : Bool) (idx : Nat) (job : Job)
    (more : List Job) (rl : List JSVal) :
    (runNextPromise ab idx (job :: more) rl).invocs.head? =
      some (idx, rl) := by
  simp only [runNextPromise]
  by_cases hb : isErrorShaped (settleRecord idx (job rl)) = true
  · cases ab <;> simp [hb, consStep]
  · simp [hb, consStep]

theorem isUndef_false_of_ne {e : JSVal} (he : e ≠ JSVal.undef) :
    isUndef e = false := by
  cases e
  · exact absurd rfl he
  all_goals rfl

/-! Concrete job lists used to evaluate the model on explicit inputs. -/

def twoQuickJobs : List Job :=
  [fun _ => .fulfilled (.num 10), fun _ => .fulfilled (.num 20)]

def errorShapedSuccessJob : List Job :=
  [fun _ => .fulfilled (.obj [("error", .num 1)])]

def plainSuccessJob : List Job := [fun _ => .fulfilled (.num 5)]

def undefinedReasonJob : List Job := [fun _ => .rejected JSVal.undef]

def definedReasonJob : List Job := [fun _ => .rejected (.num 4)]

def mixedPairJobs : List Job :=
  [fun _ => .fulfilled (.num 1), fun _ => .rejected (.num 2)]

def failingSingleJob : List Job := [fun _ => .rejected (.num 7)]

def failThenOkJobs : List Job :=
  [fun _ => .rejected (.num 9), fun _ => .fulfilled (.num 1)]

def singleOkJob : List Job := [fun _ => .fulfilled (.num 42)]

def singleOkJobA : List Job := [fun _ => .fulfilled (.num 1)]

def singleOkJobB : List Job := [fun _ => .fulfilled (.num (0 + 1))]

def twoOkJobs : List Job :=
  [fun _ => .fulfilled (.num 1), fun _ => .fulfilled (.num 2)]

def singleFailJob : List Job := [fun _ => .rejected (.num 8)]

def singleOkJobC : List Job := [fun _ => .fulfilled (.num 3)]

/-- C1: the spec claims `run(jobs, {laneCount: N})` starts `N` distinct lanes
so that two jobs can be in flight at once.  The code instead evaluates
`getPromiseThread()` once and fills the thread array with `N` references to
that single thread: at the failing input (two jobs, `threadsNumber = 2`) the
thread array holds the same thread twice, and the second job's snapshot
already contains the first job's recorded outcome, so the two jobs were never
in flight together. -/
theorem fill_shares_one_thread_so_jobs_never_overlap :
    threadsOf twoQuickJobs 2 true =
      [getPromiseThread twoQuickJobs true,
        getPromiseThread twoQuickJobs true] ∧
    (getPromiseThread twoQuickJobs true).invocs.map Prod.fst = [0, 1] ∧
    ((getPromiseThread twoQuickJobs true).invocs.getD 1 (0, [])).2 =
      [successRecord 0 (.num 10), JSVal.null] :=
  ⟨rfl, rfl, rfl⟩

/-- C2 counterexample: the job at index 0 completes successfully with the
value `{ error: 1 }`, yet the run treats it as a failure: the slot receives
the raw value rather than `Success{promiseIndex: 0, data: v}`, and with
`abortOnFail = true` the run rejects on account of this successful job. -/
theorem success_with_error_property_misclassified :
    runSequentialPromises errorShapedSuccessJob 1 true =
      .rejectedRun (.obj [("error", .num 1),
        ("resultList", .arr [.obj [("error", .num 1)]])]) ∧
    (getPromiseThread errorShapedSuccessJob true).writes =
      [(0, .obj [("error", .num 1)])] :=
  ⟨rfl, rfl⟩

/-- C2 (amended): for every job that completes successfully with a value `v`
that is not error-shaped — `undefined`, `null`, or any value without a
defined `error` property — the thread writes
`Success{promiseIndex: i, data: v}` into slot `i`, that record persists to
the final list, and the thread goes on to claim index `i + 1`: the success is
not treated as a failure, no abort and no rejection happen on account of it.
(A successful value that is non-null, non-undefined and has a defined `error`
property is instead treated as a failure record; see the counterexample.) -/
theorem plain_success_recorded_and_run_continues (jobs : List Job)
    (ab : Bool) (i : Nat) (s : List JSVal) (v : JSVal)
    (hmem : (i, s) ∈ (getPromiseThread jobs ab).invocs)
    (hjob : jobs.getD i defaultJob s = .fulfilled v)
    (hv : isErrorShaped v = false) :
    (i, successRecord i v) ∈ (getPromiseThread jobs ab).writes ∧
    (getPromiseThread jobs ab).resultList.getD i JSVal.undef =
      successRecord i v ∧
    (i + 1) ∈ (getPromiseThread jobs ab).claims := by
  have hrec : recordFor i (jobs.getD (i - 0) defaultJob s) =
      successRecord i v := by
    rw [Nat.sub_zero, hjob]
    simp [recordFor, settleRecord, hv]
  have hw := invocs_mem_writes ab 0 jobs (initList jobs) i s hmem
  rw [hrec] at hw
  have hlen : (initList jobs).length = 0 + jobs.length := by
    simp [initList]
  refine ⟨hw, writes_persist ab 0 jobs (initList jobs) hlen i _ hw, ?_⟩
  have herr : isErrorShaped
      (settleRecord i (jobs.getD (i - 0) defaultJob s)) = false := by
    rw [Nat.sub_zero, hjob]
    exact hv
  exact continue_claim ab 0 jobs (initList jobs) i s hmem herr

/-- C2 witness: the amended claim evaluated on a job fulfilling with the
plain value `5`. -/
theorem plain_success_recorded_and_run_continues_witness :
    ((0 : Nat), successRecord 0 (.num 5)) ∈
      (getPromiseThread plainSuccessJob true).writes ∧
    (getPromiseThread plainSuccessJob true).resultList.getD 0 JSVal.undef =
      successRecord 0 (.num 5) ∧
    (0 + 1) ∈ (getPromiseThread plainSuccessJob true).claims :=
  plain_success_recorded_and_run_continues plainSuccessJob true 0
    [JSVal.null] (.num 5) (List.mem_singleton.mpr rfl) rfl rfl

/-- C3 counterexample: the job at index 0 fails with reason `undefined`, with
`abortOnFail = true`; yet no `Failure{promiseIndex, error}` is written — the
slot receives a success wrapper whose `data` is the normalised failure record
— the thread does not abort, and the run resolves instead of rejecting. -/
theorem undefined_failure_reason_recorded_as_success :
    runSequentialPromises undefinedReasonJob 1 true =
      .resolvedRun [successRecord 0
        (.obj [("promiseIndex", .num 0), ("error", JSVal.undef)])] ∧
    (getPromiseThread undefinedReasonJob true).rejection = none ∧
    (getPromiseThread undefinedReasonJob true).writes =
      [(0, successRecord 0
        (.obj [("promiseIndex", .num 0), ("error", JSVal.undef)]))] :=
  ⟨rfl, rfl, rfl⟩

/-- C3 (amended): for every job whose asynchronous operation fails with a
reason `e` other than `undefined`, the thread writes
`Failure{promiseIndex: i, error: e}` into slot `i` (the failure is captured
as data), that record persists to the final list, and if `abortOnFail = true`
the thread rejects with that record spread together with the result-list
snapshot, while with `abortOnFail = false` no rejection ever occurs.  (A
failure whose reason is exactly `undefined` is instead recorded as a success
wrapper; see the counterexample.) -/
theorem failure_with_defined_reason_recorded_and_aborts (jobs : List Job)
    (ab : Bool) (i : Nat) (s : List JSVal) (e : JSVal)
    (hmem : (i, s) ∈ (getPromiseThread jobs ab).invocs)
    (hjob : jobs.getD i defaultJob s = .rejected e)
    (he : e ≠ JSVal.undef) :
    (i, .obj [("promiseIndex", .num (i : Int)), ("error", e)]) ∈
      (getPromiseThread jobs ab).writes ∧
    (getPromiseThread jobs ab).resultList.getD i JSVal.undef =
      .obj [("promiseIndex", .num (i : Int)), ("error", e)] ∧
    (ab = true → (getPromiseThread jobs ab).rejection =
      some (objSpreadWith
        (.obj [("promiseIndex", .num (i : Int)), ("error", e)]) "resultList"
        (.arr (getPromiseThread jobs ab).resultList))) ∧
    (ab = false → (getPromiseThread jobs ab).rejection = none) := by
  have herr : isErrorShaped
      (settleRecord i (jobs.getD (i - 0) defaultJob s)) = true := by
    rw [Nat.sub_zero, hjob, settle_rejected_errorShaped,
      isUndef_false_of_ne he]
    rfl
  have herr2 : isErrorShaped
      (JSVal.obj [("promiseIndex", .num (i : Int)), ("error", e)]) = true := by
    rw [Nat.sub_zero, hjob] at herr
    simpa [settleRecord] using herr
  have hrec : recordFor i (jobs.getD (i - 0) defaultJob s) =
      .obj [("promiseIndex", .num (i : Int)), ("error", e)] := by
    rw [Nat.sub_zero, hjob]
    simp [recordFor, settleRecord, herr2]
  have hw := invocs_mem_writes ab 0 jobs (initList jobs) i s hmem
  rw [hrec] at hw
  have hlen : (initList jobs).length = 0 + jobs.length := by
    simp [initList]
  refine ⟨hw, writes_persist ab 0 jobs (initList jobs) hlen i _ hw, ?_, ?_⟩
  · intro hab
    subst hab
    have := abort_spec 0 jobs (initList jobs) i s hmem herr
    rw [Nat.sub_zero, hjob] at this
    simpa [settleRecord] using this
  · intro hab
    subst hab
    exact rejection_none_noAbort 0 jobs (initList jobs)

/-- C3 witness: the amended claim evaluated on a job failing with reason
`4`. -/
theorem failure_with_defined_reason_recorded_and_aborts_witness :
    ((0 : Nat), JSVal.obj [("promiseIndex", .num ((0 : Nat) : Int)),
      ("error", .num 4)]) ∈ (getPromiseThread definedReasonJob true).writes ∧
    (getPromiseThread definedReasonJob true).resultList.getD 0 JSVal.undef =
      .obj [("promiseIndex", .num ((0 : Nat) : Int)), ("error", .num 4)] ∧
    (true = true → (getPromiseThread definedReasonJob true).rejection =
      some (objSpreadWith
        (.obj [("promiseIndex", .num ((0 : Nat) : Int)), ("error", .num 4)])
        "resultList"
        (.arr (getPromiseThread definedReasonJob true).resultList))) ∧
    (true = false → (getPromiseThread definedReasonJob true).rejection =
      none) :=
  failure_with_defined_reason_recorded_and_aborts definedReasonJob true 0
    [JSVal.null] (.num 4) (List.mem_singleton.mpr rfl) rfl
    (fun h => JSVal.noConfusion h)

/-- C4: with `abortOnFail = false` (and a positive `threadsNumber`, as the
documented option domain requires) the run never rejects: it resolves with a
list of exactly `jobCount` slots, every job index is invoked, no slot is left
`null`, and each slot holds either a success record or an error-shaped
failure record, addressed by original job index. -/
theorem noAbort_resolves_full_list (jobs : List Job) (N : Nat)
    (hN : N ≠ 0) :
    runSequentialPromises jobs N false =
      .resolvedRun (getPromiseThread jobs false).resultList ∧
    (getPromiseThread jobs false).resultList.length = jobs.length ∧
    (getPromiseThread jobs false).invocs.map Prod.fst =
      List.range jobs.length ∧
    ∀ j, j < jobs.length →
      (getPromiseThread jobs false).resultList.getD j JSVal.undef ≠
        JSVal.null ∧
      ((∃ v, (getPromiseThread jobs false).resultList.getD j JSVal.undef =
          successRecord j v) ∨
        isErrorShaped
          ((getPromiseThread jobs false).resultList.getD j JSVal.undef) =
          true) := by
  have hrejnone : (getPromiseThread jobs false).rejection = none :=
    rejection_none_noAbort 0 jobs (initList jobs)
  have hlen0 : (initList jobs).length = 0 + jobs.length := by
    simp [initList]
  have hlenfin : (getPromiseThread jobs false).resultList.length =
      jobs.length := by
    have := length_resultList false 0 jobs (initList jobs)
    simpa [initList] using this
  have hmapfst : (getPromiseThread jobs false).invocs.map Prod.fst =
      List.range jobs.length := by
    have := invocs_map_fst_noAbort 0 jobs (initList jobs)
    rw [List.range_eq_range']
    exact this
  refine ⟨?_, hlenfin, hmapfst, ?_⟩
  · rw [runSequentialPromises_eq_of_pos jobs N false hN, hrejnone]
  · intro j hj
    have hjmem : j ∈ (getPromiseThread jobs false).invocs.map Prod.fst := by
      rw [hmapfst]
      exact List.mem_range.mpr hj
    obtain ⟨⟨j', s⟩, hmem, hj'⟩ := List.mem_map.mp hjmem
    simp only at hj'
    rw [hj'] at hmem
    have hw : (j, recordFor j (jobs.getD (j - 0) defaultJob s)) ∈
        (getPromiseThread jobs false).writes :=
      invocs_mem_writes false 0 jobs (initList jobs) j s hmem
    have hslot : (getPromiseThread jobs false).resultList.getD j JSVal.undef =
        recordFor j (jobs.getD (j - 0) defaultJob s) :=
      writes_persist false 0 jobs (initList jobs) hlen0 j _ hw
    rw [hslot]
    refine ⟨recordFor_ne_null _ _, ?_⟩
    rw [Nat.sub_zero]
    by_cases hb : isErrorShaped
        (settleRecord j (jobs.getD j defaultJob s)) = true
    · right
      rw [recordFor_of_errorShaped hb]
      exact hb
    · left
      have hb' : isErrorShaped
          (settleRecord j (jobs.getD j defaultJob s)) = false := by
        simpa using hb
      exact ⟨settleRecord j (jobs.getD j defaultJob s),
        recordFor_of_not_errorShaped hb'⟩

/-- C4 witness: evaluated at one succeeding and one failing job with a single
thread; the failing slot (index 1) is filled, not `null`. -/
theorem noAbort_resolves_full_list_witness :
    runSequentialPromises mixedPairJobs 1 false =
      .resolvedRun (getPromiseThread mixedPairJobs false).resultList ∧
    (getPromiseThread mixedPairJobs false).resultList.getD 1 JSVal.undef ≠
      JSVal.null := by
  have h := noAbort_resolves_full_list mixedPairJobs 1 Nat.one_ne_zero
  exact ⟨h.1, (h.2.2.2 1 (by decide)).1⟩

/-- C5 counterexample: a run with `abortOnFail = true` in which a job fails
(index 1 rejects, with reason `undefined`), yet the returned promise resolves
rather than rejecting with that job's index, error and snapshot. -/
theorem undefined_reason_failure_does_not_reject :
    runSequentialPromises
      [fun _ => .fulfilled (.num 3), fun _ => .rejected JSVal.undef] 1 true =
      .resolvedRun [successRecord 0 (.num 3),
        successRecord 1 (.obj [("promiseIndex", .num 1),
          ("error", JSVal.undef)])] :=
  rfl

/-- C5 (amended): for every run with `abortOnFail = true` and positive
`threadsNumber` in which some invoked job fails with a reason other than
`undefined`, the run rejects.  The rejection payload is the error-shaped
record of the job at which the thread aborted, spread together with the
result-list snapshot taken at the moment of failure: in that snapshot the
aborting job's slot holds the error-shaped record (for a genuine failure,
`Failure{promiseIndex, error}`), every earlier slot holds a success record,
and every later slot is still `null` (Empty).  (A failure with reason exactly
`undefined` does not trigger rejection, and a job that merely fulfils with an
error-shaped value can trigger it; see the counterexample.) -/
theorem abort_run_rejects_with_snapshot (jobs : List Job) (N : Nat)
    (hN : N ≠ 0) (i : Nat) (s : List JSVal) (e : JSVal)
    (hmem : (i, s) ∈ (getPromiseThread jobs true).invocs)
    (hjob : jobs.getD i defaultJob s = .rejected e)
    (he : e ≠ JSVal.undef) :
    ∃ p, runSequentialPromises jobs N true = .rejectedRun p ∧
      ∃ k r, (k, r) ∈ (getPromiseThread jobs true).writes ∧
        isErrorShaped r = true ∧
        p = objSpreadWith r "resultList"
          (.arr (getPromiseThread jobs true).resultList) ∧
        (getPromiseThread jobs true).resultList.length = jobs.length ∧
        (getPromiseThread jobs true).resultList.getD k JSVal.undef = r ∧
        (∀ j, j < k → ∃ v,
          (getPromiseThread jobs true).resultList.getD j JSVal.undef =
            successRecord j v) ∧
        (∀ j, k < j → j < jobs.length →
          (getPromiseThread jobs true).resultList.getD j JSVal.undef =
            JSVal.null) := by
  have herr : isErrorShaped
      (settleRecord i (jobs.getD (i - 0) defaultJob s)) = true := by
    rw [Nat.sub_zero, hjob, settle_rejected_errorShaped,
      isUndef_false_of_ne he]
    rfl
  have hrej : (getPromiseThread jobs true).rejection =
      some (objSpreadWith
        (settleRecord i (jobs.getD (i - 0) defaultJob s)) "resultList"
        (.arr (getPromiseThread jobs true).resultList)) :=
    abort_spec 0 jobs (initList jobs) i s hmem herr
  have hlen0 : (initList jobs).length = 0 + jobs.length := by
    simp [initList]
  have hlenfin : (getPromiseThread jobs true).resultList.length =
      jobs.length := by
    have := length_resultList true 0 jobs (initList jobs)
    simpa [initList] using this
  have hsucc0 : ∀ j, j < 0 → ∃ v,
      (initList jobs).getD j JSVal.undef = successRecord j v :=
    fun j hj => absurd hj (Nat.not_lt_zero j)
  have hnull0 : ∀ j, 0 ≤ j → j < (initList jobs).length →
      (initList jobs).getD j JSVal.undef = JSVal.null := by
    intro j _ hjl
    rw [initList] at hjl ⊢
    rw [List.length_replicate] at hjl
    exact getD_replicate_lt _ _ _ _ hjl
  obtain ⟨k, r, hw, hr, hpe, hslot, hbefore, hafter⟩ :=
    rejection_structure 0 jobs (initList jobs) hlen0 hsucc0 hnull0 _ hrej
  refine ⟨_, ?_, k, r, hw, hr, hpe, hlenfin, hslot, hbefore, ?_⟩
  · rw [runSequentialPromises_eq_of_pos jobs N true hN, hrej]
  · intro j hkj hjl
    exact hafter j hkj (lt_of_lt_of_eq hjl hlenfin.symm)

/-- C5 witness: the amended claim evaluated at a single job failing with
reason `7` and one thread. -/
theorem abort_run_rejects_with_snapshot_witness :
    ∃ p, runSequentialPromises failingSingleJob 1 true = .rejectedRun p ∧
      ∃ k r, (k, r) ∈ (getPromiseThread failingSingleJob true).writes ∧
        isErrorShaped r = true ∧
        p = objSpreadWith r "resultList"
          (.arr (getPromiseThread failingSingleJob true).resultList) ∧
        (getPromiseThread failingSingleJob true).resultList.length =
          failingSingleJob.length ∧
        (getPromiseThread failingSingleJob true).resultList.getD
          k JSVal.undef = r ∧
        (∀ j, j < k → ∃ v,
          (getPromiseThread failingSingleJob true).resultList.getD
            j JSVal.undef = successRecord j v) ∧
        (∀ j, k < j → j < failingSingleJob.length →
          (getPromiseThread failingSingleJob true).resultList.getD
            j JSVal.undef = JSVal.null) :=
  abort_run_rejects_with_snapshot failingSingleJob 1 Nat.one_ne_zero 0
    [JSVal.null] (.num 7) (List.mem_singleton.mpr rfl) rfl
    (fun h => JSVal.noConfusion h)

/-- C6 counterexample: with `abortOnFail = true`, job 0 failing (reason `9`)
aborts the run, so index 1 — although within `[0, jobCount)` with
`jobCount = 2` — is never claimed from the cursor and never passed to any job
invocation, refuting "each index in `[0, jobCount)` is claimed … and passed
to exactly one job invocation". -/
theorem abort_skips_remaining_indices :
    failThenOkJobs.length = 2 ∧
    (getPromiseThread failThenOkJobs true).claims = [0] ∧
    (getPromiseThread failThenOkJobs true).invocs.map Prod.fst = [0] :=
  ⟨rfl, rfl, rfl⟩

/-- C6 (amended): in every run, cursor claims are strictly increasing from 0
with no gaps or duplicates, each index in `[0, jobCount)` is passed to AT
MOST one job invocation (exactly one for every index only when no abort cuts
the run short), invoked indices all lie below `jobCount`, and each result
slot is written at most once — by the write of its own job's recorded
outcome, computed from the snapshot that job received — transitions away from
`null` at that single write, and retains exactly that record in the final
list. -/
theorem claims_increasing_slot_written_once_own_outcome (jobs : List Job)
    (ab : Bool) (i : Nat) (w : JSVal)
    (hw : (i, w) ∈ (getPromiseThread jobs ab).writes) :
    (∃ m, (getPromiseThread jobs ab).invocs.map Prod.fst =
      List.range' 0 m ∧ m ≤ jobs.length) ∧
    (∃ k, (getPromiseThread jobs ab).claims = List.range' 0 k ∧ 1 ≤ k) ∧
    (getPromiseThread jobs ab).writes.map Prod.fst =
      (getPromiseThread jobs ab).invocs.map Prod.fst ∧
    (∃ s, (i, s) ∈ (getPromiseThread jobs ab).invocs ∧
      w = recordFor i (jobs.getD i defaultJob s)) ∧
    (getPromiseThread jobs ab).resultList.getD i JSVal.undef = w ∧
    w ≠ JSVal.null := by
  have hlen0 : (initList jobs).length = 0 + jobs.length := by
    simp [initList]
  obtain ⟨s, hmem, hrec⟩ := writes_mem_spec ab 0 jobs (initList jobs) i w hw
  rw [Nat.sub_zero] at hrec
  refine ⟨invocs_map_fst ab 0 jobs (initList jobs),
    claims_range ab 0 jobs (initList jobs),
    writes_map_fst ab 0 jobs (initList jobs),
    ⟨s, hmem, hrec⟩,
    writes_persist ab 0 jobs (initList jobs) hlen0 i w hw, ?_⟩
  rw [hrec]
  exact recordFor_ne_null _ _

/-- C6 witness: the amended claim evaluated at a single succeeding job. -/
theorem claims_increasing_slot_written_once_own_outcome_witness :
    (∃ m, (getPromiseThread singleOkJob true).invocs.map Prod.fst =
      List.range' 0 m ∧ m ≤ singleOkJob.length) ∧
    (∃ k, (getPromiseThread singleOkJob true).claims = List.range' 0 k ∧
      1 ≤ k) ∧
    (getPromiseThread singleOkJob true).writes.map Prod.fst =
      (getPromiseThread singleOkJob true).invocs.map Prod.fst ∧
    (∃ s, ((0 : Nat), s) ∈ (getPromiseThread singleOkJob true).invocs ∧
      successRecord 0 (.num 42) =
        recordFor 0 (singleOkJob.getD 0 defaultJob s)) ∧
    (getPromiseThread singleOkJob true).resultList.getD 0 JSVal.undef =
      successRecord 0 (.num 42) ∧
    successRecord 0 (.num 42) ≠ JSVal.null :=
  claims_increasing_slot_written_once_own_outcome singleOkJob true 0
    (successRecord 0 (.num 42)) (List.mem_singleton.mpr rfl)

/-- C7: a run whose `threadsNumber` exceeds the job count produces exactly
the same observable outcome as one whose `threadsNumber` equals the job
count (the thread array only ever holds references to the one shared thread,
so its size is immaterial beyond being zero or not). -/
theorem excess_threads_equivalent (jobs : List Job) (N : Nat) (ab : Bool)
    (hN : jobs.length < N) :
    runSequentialPromises jobs N ab =
      runSequentialPromises jobs jobs.length ab := by
  by_cases hz : jobs.length = 0
  · have hnil : jobs = [] := List.length_eq_zero.mp hz
    subst hnil
    rw [runSequentialPromises_eq_of_pos [] N ab (by omega)]
    rfl
  · rw [runSequentialPromises_eq_of_pos jobs N ab (by omega),
      runSequentialPromises_eq_of_pos jobs jobs.length ab hz]

/-- C7 witness: five threads versus one thread over a single job. -/
theorem excess_threads_equivalent_witness :
    runSequentialPromises singleOkJobC 5 true =
      runSequentialPromises singleOkJobC 1 true :=
  excess_threads_equivalent singleOkJobC 5 true (by decide)

/-- C8: jobs are invoked strictly one at a time in increasing index order
(the invoked indices form a gapless prefix `0, 1, …` of the job indices), and
the snapshot passed to the job at index `i` has every slot below `i` already
non-`null` — the outcomes of jobs `0 … i-1` are recorded before job `i`
starts — and every slot from `i` on still `null`.  This holds for every
`threadsNumber ≥ 1`, since every entry of the thread array is the same single
thread. -/
theorem jobs_run_in_index_order_with_prefix_snapshots (jobs : List Job)
    (ab : Bool) (i : Nat) (s : List JSVal)
    (hmem : (i, s) ∈ (getPromiseThread jobs ab).invocs) :
    (∃ m, (getPromiseThread jobs ab).invocs.map Prod.fst =
      List.range' 0 m ∧ m ≤ jobs.length) ∧
    s.length = jobs.length ∧
    (∀ j, j < i → s.getD j JSVal.undef ≠ JSVal.null) ∧
    (∀ j, i ≤ j → j < jobs.length → s.getD j JSVal.undef = JSVal.null) := by
  have hfill0 : ∀ j, j < 0 →
      (initList jobs).getD j JSVal.undef ≠ JSVal.null :=
    fun j hj => absurd hj (Nat.not_lt_zero j)
  have hnull0 : ∀ j, 0 ≤ j → j < (initList jobs).length →
      (initList jobs).getD j JSVal.undef = JSVal.null := by
    intro j _ hjl
    rw [initList] at hjl ⊢
    rw [List.length_replicate] at hjl
    exact getD_replicate_lt _ _ _ _ hjl
  obtain ⟨hslen, hfill, hnull⟩ :=
    snapshot_spec ab 0 jobs (initList jobs) hfill0 hnull0 i s hmem
  have hslen' : s.length = jobs.length := by
    rw [hslen]; simp [initList]
  refine ⟨invocs_map_fst ab 0 jobs (initList jobs), hslen', hfill, ?_⟩
  intro j hij hjl
  exact hnull j hij (lt_of_lt_of_eq hjl hslen'.symm)

/-- C8 witness: evaluated at two succeeding jobs; the second invocation, at
index 1, receives the snapshot holding job 0's success and a `null` slot. -/
theorem jobs_run_in_index_order_with_prefix_snapshots_witness :
    (∃ m, (getPromiseThread twoOkJobs true).invocs.map Prod.fst =
      List.range' 0 m ∧ m ≤ twoOkJobs.length) ∧
    (successRecord 0 (.num 1) :: [JSVal.null]).length = twoOkJobs.length ∧
    (∀ j, j < 1 →
      (successRecord 0 (.num 1) :: [JSVal.null]).getD j JSVal.undef ≠
        JSVal.null) ∧
    (∀ j, 1 ≤ j → j < twoOkJobs.length →
      (successRecord 0 (.num 1) :: [JSVal.null]).getD j JSVal.undef =
        JSVal.null) :=
  jobs_run_in_index_order_with_prefix_snapshots twoOkJobs true 1
    (successRecord 0 (.num 1) :: [JSVal.null])
    (List.Mem.tail _ (List.Mem.head _))

/-- C9: the run is deterministic.  Jobs are modelled as deterministic
functions from their snapshot to a settled outcome, the single shared thread
runs them in a fixed sequential order, and the outcome of the run is a
function of nothing but the jobs' extensional behaviour and the options: two
invocations of the run on jobs that agree as functions (of any syntactic
presentation) produce identical outcomes, for every `threadsNumber` — no
scheduling choice influences the result. -/
theorem run_deterministic_in_job_behaviour (jobs₁ jobs₂ : List Job)
    (N : Nat) (ab : Bool) (hlen : jobs₁.length = jobs₂.length)
    (hext : ∀ k s, jobs₁.getD k defaultJob s = jobs₂.getD k defaultJob s) :
    runSequentialPromises jobs₁ N ab = runSequentialPromises jobs₂ N ab := by
  have hthread : getPromiseThread jobs₁ ab = getPromiseThread jobs₂ ab := by
    unfold getPromiseThread initList
    rw [hlen]
    exact runNextPromise_ext ab jobs₁ jobs₂ 0 _ hlen hext
  by_cases hN : N = 0
  · subst hN
    unfold runSequentialPromises
    simp [initList, hlen]
  · rw [runSequentialPromises_eq_of_pos jobs₁ N ab hN,
      runSequentialPromises_eq_of_pos jobs₂ N ab hN, hthread]

/-- C9 witness: two syntactically different presentations of the same job
behaviour give the same outcome. -/
theorem run_deterministic_in_job_behaviour_witness :
    runSequentialPromises singleOkJobA 1 true =
      runSequentialPromises singleOkJobB 1 true :=
  run_deterministic_in_job_behaviour singleOkJobA singleOkJobB 1 true rfl
    (fun k s => by cases k <;> rfl)

/-- C10: when `threadsNumber = 0` is passed, `Array(0).fill(getPromiseThread())`
still evaluates its argument, so the one thread is created and synchronously
claims index 0 and invokes job 0 with the all-`null` snapshot; but the thread
array is empty, so the thread's promise is not among those `Promise.all`
awaits: the returned promise resolves without waiting for any job, with the
result list still holding its initial `null` (Empty) slots at resolution
time. -/
theorem zero_threads_resolves_early_thread_still_runs (jobs : List Job)
    (ab : Bool) (h : 0 < jobs.length) :
    threadsOf jobs 0 ab = [] ∧
    runSequentialPromises jobs 0 ab = .resolvedRun (initList jobs) ∧
    (∀ j, j < jobs.length →
      (initList jobs).getD j JSVal.undef = JSVal.null) ∧
    (getPromiseThread jobs ab).claims.head? = some 0 ∧
    (getPromiseThread jobs ab).invocs.head? = some (0, initList jobs) := by
  refine ⟨rfl, rfl, ?_, claims_head ab 0 jobs (initList jobs), ?_⟩
  · intro j hj
    rw [initList]
    exact getD_replicate_lt _ _ _ _ hj
  · cases hjobs : jobs with
    | nil => rw [hjobs] at h; cases h
    | cons job more =>
        exact invocs_head_cons ab 0 job more (initList (job :: more))

/-- C10 witness: a single failing job with `abortOnFail = true` and
`threadsNumber = 0`: the run resolves early with the `null` slot even though
the unawaited thread rejected. -/
theorem zero_threads_resolves_early_thread_still_runs_witness :
    (threadsOf singleFailJob 0 true = [] ∧
      runSequentialPromises singleFailJob 0 true =
        .resolvedRun (initList singleFailJob) ∧
      (∀ j, j < singleFailJob.length →
        (initList singleFailJob).getD j JSVal.undef = JSVal.null) ∧
      (getPromiseThread singleFailJob true).claims.head? = some 0 ∧
      (getPromiseThread singleFailJob true).invocs.head? =
        some (0, initList singleFailJob)) ∧
    (getPromiseThread singleFailJob true).rejection.isSome = true :=
  ⟨zero_threads_resolves_early_thread_still_runs singleFailJob true
    (Nat.zero_lt_one), rfl⟩
